import Mathlib

/-!
Verification development for the device-tree source parser
(`app/services/parser.py` and the structural diff in `app/routes/main.py`).

Text is modelled as `List Char` (ASCII submodel of Python `str`: the regex
classes `\w`, `\d`, `\s` are modelled by their ASCII parts, and `splitlines`
splits on the newline character, which covers all inputs considered here).
Python `None`-able values are modelled with `Option`, Python machine-free
integers with `Int`/`Nat`.
-/

namespace DtsParser

/- Named character constants.  Braces and quotes are kept out of string
literals in the scanning code. -/
def lbrace : Char := Char.ofNat 123
def rbrace : Char := Char.ofNat 125
def squote : Char := Char.ofNat 39
def dquote : Char := Char.ofNat 34
def backslash : Char := Char.ofNat 92
def newlineChar : Char := Char.ofNat 10
def slash : Char := '/'
def star : Char := '*'
def colon : Char := ':'
def semicolon : Char := ';'
def amp : Char := '&'
def underscore : Char := '_'
def hyphen : Char := '-'
def dot : Char := '.'
def comma : Char := ','
def atSign : Char := '@'
def eqChar : Char := '='
def ltChar : Char := '<'
def gtChar : Char := '>'

/-- ASCII model of the Python regex class `\s`
(space, tab, newline, carriage return, vertical tab, form feed). -/
def isPySpace (c : Char) : Bool :=
  c = ' ' ∨ c = Char.ofNat 9 ∨ c = Char.ofNat 10 ∨ c = Char.ofNat 13 ∨
  c = Char.ofNat 11 ∨ c = Char.ofNat 12

/-- ASCII model of the Python regex class `\w`. -/
def isWordChar (c : Char) : Bool := c.isAlpha ∨ c.isDigit ∨ c = underscore

/-- The character class `[\w\-\.\@]` used for labels and `&`-references. -/
def isLabelChar (c : Char) : Bool :=
  isWordChar c ∨ c = hyphen ∨ c = dot ∨ c = atSign

/-- The character class `[\w\-\.\,\@/]` used for generic name tokens. -/
def isNameChar (c : Char) : Bool := isLabelChar c ∨ c = comma ∨ c = slash

/-- State of the comment-stripping scanner in `_strip_comments`:
normal text, inside a string opened by quote `q`, inside a `//` comment,
inside a `/* ... */` comment. -/
inductive SCMode
  | normal
  | inStr (q : Char)
  | lineC
  | blockC

/-- Character-level scanner of `_strip_comments` (parser.py lines 6-60).
Each branch mirrors one branch of the Python `while` loop; consuming two
characters corresponds to `i += 2`. -/
def stripCommentsAux : SCMode → List Char → List Char
  | _, [] => []
  | .lineC, c :: rest =>
      if c = newlineChar then newlineChar :: stripCommentsAux .normal rest
      else stripCommentsAux .lineC rest
  | .blockC, c :: rest =>
      if c = star then
        match rest with
        | c2 :: rest2 =>
            if c2 = slash then stripCommentsAux .normal rest2
            else stripCommentsAux .blockC (c2 :: rest2)
        | [] => []
      else stripCommentsAux .blockC rest
  | .inStr q, c :: rest =>
      if c = backslash then
        match rest with
        | c2 :: rest2 => c :: c2 :: stripCommentsAux (.inStr q) rest2
        | [] => [c]
      else if c = q then c :: stripCommentsAux .normal rest
      else c :: stripCommentsAux (.inStr q) rest
  | .normal, c :: rest =>
      if c = squote ∨ c = dquote then c :: stripCommentsAux (.inStr c) rest
      else if c = slash then
        match rest with
        | c2 :: rest2 =>
            if c2 = slash then stripCommentsAux .lineC rest2
            else if c2 = star then stripCommentsAux .blockC rest2
            else c :: stripCommentsAux .normal (c2 :: rest2)
        | [] => [c]
      else c :: stripCommentsAux .normal rest

/-- `_strip_comments` from parser.py. -/
def stripComments (text : List Char) : List Char :=
  stripCommentsAux .normal text

/-- Number of newline characters in a text. -/
def countNewlines (l : List Char) : Nat := l.count newlineChar

/-- `_count_braces_outside_strings` (parser.py lines 63-88), including its
fall-through behaviour: inside a string a character that is neither a
backslash-escape, the closing quote, nor another quote still reaches the
brace-counting tests. The state is the currently open quote, if any. -/
def countBracesAux : Option Char → List Char → Nat × Nat
  | _, [] => (0, 0)
  | some q, c :: rest =>
      if c = backslash then
        match rest with
        | [] => (0, 0)
        | _ :: rest2 => countBracesAux (some q) rest2
      else if c = q then countBracesAux none rest
      else if c = squote ∨ c = dquote then countBracesAux (some c) rest
      else if c = lbrace then
        let p := countBracesAux (some q) rest; (p.1 + 1, p.2)
      else if c = rbrace then
        let p := countBracesAux (some q) rest; (p.1, p.2 + 1)
      else countBracesAux (some q) rest
  | none, c :: rest =>
      if c = squote ∨ c = dquote then countBracesAux (some c) rest
      else if c = lbrace then
        let p := countBracesAux none rest; (p.1 + 1, p.2)
      else if c = rbrace then
        let p := countBracesAux none rest; (p.1, p.2 + 1)
      else countBracesAux none rest

def countBraces (line : List Char) : Nat × Nat := countBracesAux none line

/-- Python `str.rstrip()` (default: strip trailing whitespace). -/
def rstripChars (l : List Char) : List Char :=
  (l.reverse.dropWhile isPySpace).reverse

/-- Split a character list at a separator character, like Python
`str.split(sep)`: `"".split` gives `[""]`. -/
def splitOnChar (sep : Char) : List Char → List (List Char)
  | [] => [[]]
  | c :: rest =>
      match splitOnChar sep rest with
      | [] => if c = sep then [[], []] else [[c]]
      | s :: ss => if c = sep then [] :: s :: ss else (c :: s) :: ss

/-- Python `str.splitlines()` restricted to `\n` terminators: no trailing
empty line for a trailing newline, and `[]` for the empty string. -/
def splitlines (l : List Char) : List (List Char) :=
  if l = [] then []
  else
    let parts := splitOnChar newlineChar l
    if l.getLast? = some newlineChar then parts.dropLast else parts

/-- Does a `\s*` run followed by an opening brace start here?  This is the
`\s*\{` tail of `NODE_OPEN_RE`; maximal-munch is exact because a brace is
not a whitespace character. -/
def braceFollows (l : List Char) : Bool :=
  match l.dropWhile isPySpace with
  | c :: _ => c = lbrace
  | [] => false

/-- The `name` alternation of `NODE_OPEN_RE`: `/`, `&[\w\-\.\@]+`, or
`[\w\-\.\,\@/]+`, each followed by `\s*\{`.  The three alternatives are
tried in the regex order; within each, maximal-munch is exact because the
repeated classes are disjoint from whitespace and from the brace. -/
def matchName (r : List Char) : Option (List Char) :=
  let alt1 : Option (List Char) :=
    match r with
    | c :: r2 => if c = slash ∧ braceFollows r2 then some [slash] else none
    | [] => none
  match alt1 with
  | some n => some n
  | none =>
    let alt2 : Option (List Char) :=
      match r with
      | c :: r2 =>
          if c = amp then
            let run := r2.takeWhile isLabelChar
            if run ≠ [] ∧ braceFollows (r2.drop run.length) then
              some (amp :: run)
            else none
          else none
      | [] => none
    match alt2 with
    | some n => some n
    | none =>
      let run := r.takeWhile isNameChar
      if run ≠ [] ∧ braceFollows (r.drop run.length) then some run else none

/-- `NODE_OPEN_RE.search(line)` (parser.py lines 92-107): the pattern is
anchored with `^` (no MULTILINE), so search means match at position 0.
Returns `(label?, name)`.  The greedy optional label group is attempted
first, exactly as the regex engine does; if the label path fails at any
later point the engine retries without the group, which the fallback
branch reproduces. -/
def matchNodeOpen (line : List Char) : Option (Option (List Char) × List Char) :=
  let r0 := line.dropWhile isPySpace
  let withLabel : Option (Option (List Char) × List Char) :=
    let lab := r0.takeWhile isLabelChar
    if lab = [] then none
    else
      match (r0.drop lab.length).dropWhile isPySpace with
      | c :: r2 =>
          if c = colon then
            (matchName (r2.dropWhile isPySpace)).map (fun n => (some lab, n))
          else none
      | [] => none
  match withLabel with
  | some res => some res
  | none => (matchName r0).map (fun n => ((none : Option (List Char)), n))

/-- Python `display.strip('"')`: remove double quotes from both ends. -/
def stripDQuotes (l : List Char) : List Char :=
  ((l.dropWhile (· = dquote)).reverse.dropWhile (· = dquote)).reverse

/-- `re.sub(r"\s+", "", display.strip('"'))`: removing every maximal
whitespace run is removing every whitespace character. -/
def dispNormOf (display : List Char) : List Char :=
  (stripDQuotes display).filter (fun c => !(isPySpace c))

/-- One entry of the `nodes` dict built by `parse_dtsi_with_map`.  The
node id `N{k}` is represented by the position `k` in the node list. -/
structure PNode where
  label : Option (List Char)
  name : List Char
  display : List Char
  start_line : Nat
  end_line : Option Nat
  path : List Char
deriving DecidableEq

/-- One entry of the open-frame `stack` of `parse_dtsi_with_map`. -/
structure Frame where
  id : Nat
  display : List Char
  brace_depth_at_open : Int
  path : List Char
  start_line : Nat
deriving DecidableEq

/-- The mutable state threaded through the line loop of
`parse_dtsi_with_map`.  `node_index` is always `nodes.length`, and the
head of `stack` is the Python stack top. -/
structure ParseState where
  stack : List Frame
  nodes : List PNode
  edges : List (Nat × Nat)
  paths : List (List Char)
  brace_depth : Int
deriving DecidableEq

def initState : ParseState := ⟨[], [], [], [], 0⟩

/-- Set the `end_line` of the node at position `i`
(`nodes[nid]["end_line"] = idx`). -/
def setEndLine (i idx : Nat) : List PNode → List PNode
  | [] => []
  | nd :: rest =>
      match i with
      | 0 => { nd with end_line := some idx } :: rest
      | j + 1 => nd :: setEndLine j idx rest

/-- The greedy frame-closing loop at the end of each line iteration
(parser.py lines 180-187): pop while the global depth is strictly below
the top frame's depth-at-open, stamping `end_line` with the current line. -/
def closeFrames (idx : Nat) (depth : Int) :
    List Frame → List PNode → List Frame × List PNode
  | [], nodes => ([], nodes)
  | top :: rest, nodes =>
      if depth < top.brace_depth_at_open then
        closeFrames idx depth rest (setEndLine top.id idx nodes)
      else (top :: rest, nodes)

/-- One iteration of the `for idx, raw_line in enumerate(lines, start=1)`
loop of `parse_dtsi_with_map` (parser.py lines 129-187).  The Python path
formula `f"{parent}/{d}" if parent else f"/{d}"` equals
`parent ++ "/" ++ d` in both branches. -/
def stepLine (idx : Nat) (raw_line : List Char) (st : ParseState) : ParseState :=
  let line := rstripChars raw_line
  let st1 : ParseState :=
    match matchNodeOpen line with
    | some (label, name) =>
        let display := label.getD name
        let node_id := st.nodes.length
        let parent_path : List Char :=
          match st.stack with
          | [] => []
          | f :: _ => f.path
        let disp_norm := dispNormOf display
        let path := parent_path ++ slash :: disp_norm
        let oc := countBraces line
        let depth' : Int := st.brace_depth + (oc.1 : Int) - (oc.2 : Int)
        let node : PNode := ⟨label, name, display, idx, none, path⟩
        let edges' :=
          match st.stack with
          | [] => st.edges
          | f :: _ => st.edges ++ [(f.id, node_id)]
        { stack := ⟨node_id, display, depth', path, idx⟩ :: st.stack
          nodes := st.nodes ++ [node]
          edges := edges'
          paths := st.paths ++ [path]
          brace_depth := depth' }
    | none =>
        let oc := countBraces line
        { st with brace_depth := st.brace_depth + (oc.1 : Int) - (oc.2 : Int) }
  let closed := closeFrames idx st1.brace_depth st1.stack st1.nodes
  { st1 with stack := closed.1, nodes := closed.2 }

/-- The whole line loop, with `idx` the 1-based number of the first line
of `ls`. -/
def runLines : Nat → List (List Char) → ParseState → ParseState
  | _, [], st => st
  | idx, l :: ls, st => runLines (idx + 1) ls (stepLine idx l st)

/-- The end-of-input recovery (parser.py lines 189-194): force-close every
frame still open with `end_line = len(lines)`. -/
def forceClose (last_line : Nat) : List Frame → List PNode → List PNode
  | [], nodes => nodes
  | top :: rest, nodes => forceClose last_line rest (setEndLine top.id last_line nodes)

/-- Boolean lexicographic order on character lists, the order Python uses
to sort strings (by code point, a proper prefix first). -/
def leChars : List Char → List Char → Bool
  | [], _ => true
  | _ :: _, [] => false
  | a :: as, b :: bs => if a < b then true else if b < a then false else leChars as bs

/-- `pathLe` as a relation, for the sorting lemmas. -/
def pathLe (a b : List Char) : Prop := leChars a b = true

instance : DecidableRel pathLe := fun a b => instDecidableEqBool (leChars a b) true

/-- Model of Python `sorted(...)` over a set of strings: sort the distinct
elements ascending. -/
def sortPaths (l : List (List Char)) : List (List Char) :=
  List.insertionSort pathLe l.dedup

/-- The result record of `parse_dtsi_with_map` (parser.py lines 196-201).
The Mermaid `graph_lines` presentation string carries the same nodes and
edges and is not modelled. -/
structure ParseResult where
  nodes : List PNode
  edges : List (Nat × Nat)
  paths : List (List Char)
deriving DecidableEq

/-- `parse_dtsi_with_map` (parser.py lines 110-201). -/
def parse_dtsi_with_map (content : List Char) : ParseResult :=
  let clean := stripComments content
  let lines := splitlines clean
  let st := runLines 1 lines initState
  let nodes := if lines = [] then st.nodes else forceClose lines.length st.stack st.nodes
  ⟨nodes, st.edges, sortPaths st.paths⟩

/-! ### Idle-topology extractor (`extract_idle_info`, parser.py lines 289-333) -/

/-- Python `sub in s` (contiguous substring test). -/
def isPrefixChars : List Char → List Char → Bool
  | [], _ => true
  | _ :: _, [] => false
  | c :: cs, x :: xs => c = x && isPrefixChars cs xs

def containsSub (sub : List Char) : List Char → Bool
  | [] => isPrefixChars sub []
  | x :: rest => isPrefixChars sub (x :: rest) || containsSub sub rest

/-- Match a literal at the head of the text, returning the rest. -/
def matchLit : List Char → List Char → Option (List Char)
  | [], l => some l
  | c :: cs, x :: xs => if x = c then matchLit cs xs else none
  | _ :: _, [] => none

/-- Python `int()` on a digit string. -/
def natOfDigits (ds : List Char) : Nat :=
  ds.foldl (fun a c => 10 * a + (c.toNat - 48)) 0

/-- Python `str.strip()`: remove whitespace from both ends. -/
def stripWS (l : List Char) : List Char :=
  ((l.dropWhile isPySpace).reverse.dropWhile isPySpace).reverse

/-- A `\b` word boundary before a word character, given the previous
character (none at the start of the text). -/
def atBoundary : Option Char → Bool
  | none => true
  | some p => !(isWordChar p)

/-- Try `_CPU_LABEL_RE` = `\bcpu(?P<idx>\d+)\s*:\s*cpu@\d+\s*\{` at the
head of the text; on success return the index and the rest after the
match.  Maximal-munch is exact: every repeated class is disjoint from
what follows it. -/
def cpuLabelAt (l : List Char) : Option (Nat × List Char) := do
  let r1 ← matchLit "cpu".data l
  let ds := r1.takeWhile Char.isDigit
  if ds = [] then none else
  match (r1.drop ds.length).dropWhile isPySpace with
  | c :: r3 =>
    if c = colon then
      let r4 := r3.dropWhile isPySpace
      let r5 ← matchLit "cpu@".data r4
      let ds2 := r5.takeWhile Char.isDigit
      if ds2 = [] then none else
      match (r5.drop ds2.length).dropWhile isPySpace with
      | c2 :: r7 => if c2 = lbrace then some (natOfDigits ds, r7) else none
      | [] => none
    else none
  | [] => none

/-- Try `_CPU_PD_RE` = `\bcpu_pd(?P<idx>\d+)\s*:\s*power-domain-cpu\d+\s*\{`. -/
def cpuPdAt (l : List Char) : Option (Nat × List Char) := do
  let r1 ← matchLit "cpu_pd".data l
  let ds := r1.takeWhile Char.isDigit
  if ds = [] then none else
  match (r1.drop ds.length).dropWhile isPySpace with
  | c :: r3 =>
    if c = colon then
      let r4 := r3.dropWhile isPySpace
      let r5 ← matchLit "power-domain-cpu".data r4
      let ds2 := r5.takeWhile Char.isDigit
      if ds2 = [] then none else
      match (r5.drop ds2.length).dropWhile isPySpace with
      | c2 :: r7 => if c2 = lbrace then some (natOfDigits ds, r7) else none
      | [] => none
    else none
  | [] => none

/-- Try `\bmpm\s*:\s*interrupt-controller`. -/
def mpmAt (l : List Char) : Option (List Char) := do
  let r1 ← matchLit "mpm".data l
  match r1.dropWhile isPySpace with
  | c :: r2 =>
    if c = colon then matchLit "interrupt-controller".data (r2.dropWhile isPySpace)
    else none
  | [] => none

/-- `finditer` loop for a word-boundary-anchored pattern: scan left to
right, collect non-overlapping matches, resume after each match.  The
fuel is the text length, enough since every step consumes a character. -/
def scanIdxs (pat : List Char → Option (Nat × List Char)) :
    Nat → Option Char → List Char → List Nat
  | 0, _, _ => []
  | _ + 1, _, [] => []
  | fuel + 1, prev, c :: rest =>
      if atBoundary prev then
        match pat (c :: rest) with
        | some (idx, after) => idx :: scanIdxs pat fuel (some lbrace) after
        | none => scanIdxs pat fuel (some c) rest
      else scanIdxs pat fuel (some c) rest

/-- `re.search` existence test for the `mpm` pattern. -/
def scanMpm : Nat → Option Char → List Char → Bool
  | 0, _, _ => false
  | _ + 1, _, [] => false
  | fuel + 1, prev, c :: rest =>
      if atBoundary prev ∧ (mpmAt (c :: rest)).isSome then true
      else scanMpm fuel (some c) rest

/-- `sorted({...})` over the collected indices. -/
def sortDedupNat (l : List Nat) : List Nat :=
  List.insertionSort (· ≤ ·) l.dedup

/-- Head of `_IDLE_BLOCK_RE`: the label alternation (`cpu_sleep` first,
as in the regex), `\s*:\s*`, a `[\w\-@\.]+` name, `\s*\{`.  Returns
whether the label was `cpu_sleep` and the rest after the brace. -/
def idleBlockHeadAt (l : List Char) : Option (Bool × List Char) :=
  let head : Option (Bool × List Char) :=
    match matchLit "cpu_sleep".data l with
    | some r => some (true, r)
    | none =>
      match matchLit "cluster_sleep".data l with
      | some r => some (false, r)
      | none => none
  match head with
  | none => none
  | some (lab, r1) =>
    match r1.dropWhile isPySpace with
    | c :: r3 =>
      if c = colon then
        let r4 := r3.dropWhile isPySpace
        let nm := r4.takeWhile isLabelChar
        if nm = [] then none else
        match (r4.drop nm.length).dropWhile isPySpace with
        | c2 :: r6 => if c2 = lbrace then some (lab, r6) else none
        | [] => none
      else none
    | [] => none

/-- Does the block terminator `\n\s*\};` start here?  Returns the rest
after it. -/
def termAt : List Char → Option (List Char)
  | c :: r1 =>
      if c = newlineChar then
        match r1.dropWhile isPySpace with
        | a :: b :: r3 => if a = rbrace ∧ b = semicolon then some r3 else none
        | _ => none
      else none
  | [] => none

/-- The non-greedy `(?P<body>.*?)` with DOTALL: the shortest body whose
end is followed by the terminator.  Returns `(body, rest after match)`. -/
def findBodyAux : Nat → List Char → List Char → Option (List Char × List Char)
  | 0, _, _ => none
  | fuel + 1, acc, l =>
      match termAt l with
      | some rest => some (acc.reverse, rest)
      | none =>
        match l with
        | [] => none
        | c :: r => findBodyAux fuel (c :: acc) r

/-- `_IDLE_BLOCK_RE.finditer`: leftmost matches, resuming after each
match; a head with no completing terminator fails at that start and the
scan advances one character, as the regex engine does. -/
def idleBlocksScan : Nat → List Char → List (Bool × List Char)
  | 0, _ => []
  | _ + 1, [] => []
  | fuel + 1, c :: rest =>
      match idleBlockHeadAt (c :: rest) with
      | some (lab, afterBrace) =>
          match findBodyAux (afterBrace.length + 1) [] afterBrace with
          | some (body, after) => (lab, body) :: idleBlocksScan fuel after
          | none => idleBlocksScan fuel rest
      | none => idleBlocksScan fuel rest

/-- Try `_PSCI_PARAM_RE` = `arm,psci-suspend-param\s*=\s*<([^>]+)>\s*;`
at the head of the text, returning the raw captured value. -/
def psciAt (l : List Char) : Option (List Char) := do
  let r1 ← matchLit "arm,psci-suspend-param".data l
  match r1.dropWhile isPySpace with
  | c :: r3 =>
    if c = eqChar then
      match r3.dropWhile isPySpace with
      | c2 :: r5 =>
        if c2 = ltChar then
          let v := r5.takeWhile (fun x => x ≠ gtChar)
          if v = [] then none else
          match r5.drop v.length with
          | c3 :: r6 =>
            if c3 = gtChar then
              match r6.dropWhile isPySpace with
              | c4 :: _ => if c4 = semicolon then some v else none
              | [] => none
            else none
          | [] => none
        else none
      | [] => none
    else none
  | [] => none

/-- `_PSCI_PARAM_RE.search(body)`: first position where it matches. -/
def psciSearch : Nat → List Char → Option (List Char)
  | 0, _ => none
  | _ + 1, [] => none
  | fuel + 1, c :: rest =>
      match psciAt (c :: rest) with
      | some v => some v
      | none => psciSearch fuel rest

/-- The `for m in _IDLE_BLOCK_RE.finditer(clean)` loop (parser.py lines
310-319): each block with a psci parameter overwrites the slot for its
label; the captured value is stripped. -/
def collectParams : List (Bool × List Char) →
    Option (List Char) → Option (List Char) →
    Option (List Char) × Option (List Char)
  | [], csp, clsp => (csp, clsp)
  | (lab, body) :: rest, csp, clsp =>
      match psciSearch (body.length + 1) body with
      | some v =>
          if lab then collectParams rest (some (stripWS v)) clsp
          else collectParams rest csp (some (stripWS v))
      | none => collectParams rest csp clsp

/-- Python truthiness of an optional string: `None` and `""` are falsy. -/
def truthyStr : Option (List Char) → Bool
  | some (_ :: _) => true
  | _ => false

/-- The full dict returned by `extract_idle_info` when an idle marker is
present.  The id-less early return `{"found": False}` is modelled by
`none` at `extract_idle_info`. -/
structure IdleInfo where
  found : Bool
  cpu_idxs : List Nat
  pd_idxs : List Nat
  cpu_sleep_param : Option (List Char)
  cluster_sleep_param : Option (List Char)
  has_cluster_pd : Bool
  has_mpm : Bool
deriving DecidableEq

/-- The sorted distinct CPU indices matched in the text (pre-default). -/
def cpuIdxsOf (clean : List Char) : List Nat :=
  sortDedupNat (scanIdxs cpuLabelAt clean.length none clean)

/-- The sorted distinct power-domain indices matched in the text. -/
def pdIdxsOf (clean : List Char) : List Nat :=
  sortDedupNat (scanIdxs cpuPdAt clean.length none clean)

/-- `extract_idle_info` (parser.py lines 299-333). -/
def extract_idle_info (content : List Char) : Option IdleInfo :=
  let clean := stripComments content
  if !(containsSub "domain-idle-states".data clean) &&
     !(containsSub "idle-states".data clean) then none
  else
    let cpu_idxs := cpuIdxsOf clean
    let pd_idxs := pdIdxsOf clean
    let params := collectParams (idleBlocksScan clean.length clean) none none
    let cpu_sleep_param := params.1
    let cluster_sleep_param := params.2
    let has_cluster_pd := containsSub "cluster_pd:".data clean
    let has_mpm := scanMpm clean.length none clean
    let found := truthyStr cpu_sleep_param || truthyStr cluster_sleep_param ||
      (!cpu_idxs.isEmpty && has_cluster_pd)
    some
      { found := found
        cpu_idxs := if cpu_idxs.isEmpty then [0, 1, 2, 3] else cpu_idxs
        pd_idxs := if pd_idxs.isEmpty then [0, 1, 2, 3] else pd_idxs
        cpu_sleep_param := cpu_sleep_param
        cluster_sleep_param := cluster_sleep_param
        has_cluster_pd := has_cluster_pd
        has_mpm := has_mpm }

/-! ### Structural diff (`diff_view`, routes/main.py lines 174-178) -/

/-- `added = sorted(list(sb - sa))`, `removed = sorted(list(sa - sb))`,
where the two path collections are taken with set semantics.  The inputs
are path collections as lists; `sortPaths` performs the set-to-sorted-list
step. -/
def diff_paths (Pa Pb : List (List Char)) :
    List (List Char) × List (List Char) :=
  (sortPaths (Pb.filter (fun p => decide (p ∉ Pa))),
   sortPaths (Pa.filter (fun p => decide (p ∉ Pb))))

/-! ### Subsystem summarizer (`parse_overview_mermaid`, parser.py 213-254) -/

/-- `_top_name_from_path` (parser.py lines 213-216). -/
def topNameFromPath (path : List Char) : Option (List Char) :=
  match (splitOnChar slash path).filter (· ≠ []) with
  | [] => none
  | p :: _ => some p

/-- `_second_name_from_path` (parser.py lines 219-222). -/
def secondNameFromPath (path : List Char) : Option (List Char) :=
  match (splitOnChar slash path).filter (· ≠ []) with
  | _ :: p :: _ => some p
  | _ => none

/-- Dict upsert `d[k] = d.get(k, 0) + 1`, keeping insertion order. -/
def bumpCount (k : List Char) : List (List Char × Nat) → List (List Char × Nat)
  | [] => [(k, 1)]
  | (k', n) :: rest =>
      if k' = k then (k', n + 1) :: rest else (k', n) :: bumpCount k rest

/-- One iteration of the `for p in paths` loop of `parse_overview_mermaid`
(parser.py lines 238-250), updating the pair
(`root_children`, `soc_children`).  The `top == ""` test of the source is
kept although it can never fire (segments are filtered non-empty). -/
def overviewStep (acc : List (List Char × Nat) × List (List Char × Nat))
    (p : List Char) : List (List Char × Nat) × List (List Char × Nat) :=
  match topNameFromPath p with
  | none => acc
  | some top =>
      if top = [] then acc
      else
        let root := bumpCount top acc.1
        let soc :=
          if top = "soc".data then
            match secondNameFromPath p with
            | some second => if second = [] then acc.2 else bumpCount second acc.2
            | none => acc.2
          else acc.2
        (root, soc)

def overviewCounts (paths : List (List Char)) :
    List (List Char × Nat) × List (List Char × Nat) :=
  paths.foldl overviewStep ([], [])

/-- The per-path update of one of the two count dicts, as a function of
the key it files the path under (if any); `overviewStep` is the pair of
these for the two key functions below. -/
def bumpOpt (f : List Char → Option (List Char)) (m : List (List Char × Nat))
    (p : List Char) : List (List Char × Nat) :=
  match f p with
  | none => m
  | some k => bumpCount k m

/-- The key under which the `root_children` dict counts a path. -/
def rootKey (p : List Char) : Option (List Char) :=
  match topNameFromPath p with
  | none => none
  | some t => if t = [] then none else some t

/-- The key under which the `soc_children` dict counts a path. -/
def socKey (p : List Char) : Option (List Char) :=
  match topNameFromPath p with
  | none => none
  | some t =>
      if t = [] then none
      else if t = "soc".data then
        match secondNameFromPath p with
        | none => none
        | some s => if s = [] then none else some s
      else none

/-- Invariant of a count dict `m` over the processed paths `Q`: keys are
distinct, each entry holds the number of processed paths filed under its
key, and a key not in the dict was never filed. -/
def CountInv (f : List Char → Option (List Char)) (Q : List (List Char))
    (m : List (List Char × Nat)) : Prop :=
  (m.map Prod.fst).Nodup ∧
  (∀ kn ∈ m, kn.2 = Q.countP (fun q => decide (f q = some kn.1))) ∧
  (∀ k : List Char, k ∉ m.map Prod.fst →
    Q.countP (fun q => decide (f q = some k)) = 0)

/-- The ranking order of `sorted(..., key=lambda kv: (-kv[1], kv[0]))`:
descending count, ties by ascending name. -/
def rankLe (a b : List Char × Nat) : Prop :=
  b.2 < a.2 ∨ (a.2 = b.2 ∧ pathLe a.1 b.1)

instance : DecidableRel rankLe := fun a b => by unfold rankLe; infer_instance

/-- `root_sorted` (parser.py line 253): rank and truncate. -/
def overviewRootSorted (content : List Char) (max_root_children : Nat) :
    List (List Char × Nat) :=
  (List.insertionSort rankLe
    (overviewCounts (parse_dtsi_with_map content).paths).1).take max_root_children

/-- `soc_sorted` (parser.py line 254). -/
def overviewSocSorted (content : List Char) (max_soc_children : Nat) :
    List (List Char × Nat) :=
  (List.insertionSort rankLe
    (overviewCounts (parse_dtsi_with_map content).paths).2).take max_soc_children

/-! ### Idle diagram emitter (`parse_idle_mermaid`, parser.py 336-373) -/

def digitChar (d : Nat) : Char := Char.ofNat (48 + d)

/-- Decimal digits of a natural number, the rendering of Python
`f"{i}"` on a non-negative int.  Fuel-driven so that it evaluates in the
kernel; `natDigits` supplies enough fuel. -/
def natDigitsAux : Nat → Nat → List Char
  | 0, _ => []
  | fuel + 1, n =>
      if n < 10 then [digitChar n]
      else natDigitsAux fuel (n / 10) ++ [digitChar (n % 10)]

def natDigits (n : Nat) : List Char := natDigitsAux (n + 1) n

/-- Python `info.get(...) or "—"`: `None` and the empty string both fall
back to the em-dash. -/
def paramOrDash : Option (List Char) → List Char
  | some (c :: cs) => c :: cs
  | _ => "—".data

def cpuDeclLine (i : Nat) : List Char :=
  "    CPU".data ++ natDigits i ++ "[\"CPU".data ++ natDigits i ++ "\"]".data

def pdDeclLine (i : Nat) : List Char :=
  "    PD".data ++ natDigits i ++ "[\"cpu_pd".data ++ natDigits i ++ "\"]".data

def cpuPdLink (i : Nat) : List Char :=
  "  CPU".data ++ natDigits i ++ " --> PD".data ++ natDigits i

def cpuIdleLink (i : Nat) : List Char :=
  "  CPU".data ++ natDigits i ++ " --> CPU_IDLE".data

def pdIdleLink (i : Nat) : List Char :=
  "  PD".data ++ natDigits i ++ " --> CPU_IDLE".data

def idleHeader : List Char :=
  "%%\x7binit: \x7b\x27flowchart\x27: \x7b\x27useMaxWidth\x27: false\x7d\x7d\x7d%%".data

def cpuIdleLine (param : List Char) : List Char :=
  "  CPU_IDLE[\"CPU Idle State\\npower-collapse\\npsci=".data ++ param ++ "\"]".data

def clusterIdleLine (param : List Char) : List Char :=
  "  CLUSTER_IDLE[\"Cluster Idle State\\ncluster-sleep\\npsci=".data ++ param ++ "\"]".data

/-- The list of diagram lines built by `parse_idle_mermaid` once the idle
topology was found (parser.py lines 341-371), in emission order. -/
def mermaidLines (info : IdleInfo) : List (List Char) :=
  [idleHeader, "flowchart TB".data, "  subgraph CPU_Layer[\"CPU Cores\"]".data]
    ++ (info.cpu_idxs.take 8).map cpuDeclLine
    ++ ["  end".data]
    ++ [cpuIdleLine (paramOrDash info.cpu_sleep_param)]
    ++ ["  subgraph CPU_PD[\"CPU Power Domains\"]".data]
    ++ (info.pd_idxs.take 8).map pdDeclLine
    ++ ["  end".data]
    ++ [clusterIdleLine (paramOrDash info.cluster_sleep_param)]
    ++ ["  CLUSTER_PD[\"cluster_pd\"]".data]
    ++ ["  MPM[\"MPM\\n(System Power Manager)\"]".data]
    ++ (info.cpu_idxs.take 8).map
        (fun i => if i ∈ info.pd_idxs.take 8 then cpuPdLink i else cpuIdleLink i)
    ++ (info.pd_idxs.take 8).map pdIdleLink
    ++ ["  CPU_IDLE --> CLUSTER_IDLE".data,
        "  CLUSTER_IDLE --> CLUSTER_PD".data,
        "  CLUSTER_PD --> MPM".data]

/-- `parse_idle_mermaid` (parser.py lines 336-373): the empty string when
the idle topology is not found (`if not info.get("found")` covers both the
bare not-found dict and a full record with `found` false), otherwise the
lines joined by newlines. -/
def parse_idle_mermaid (content : List Char) : List Char :=
  match extract_idle_info content with
  | none => []
  | some info =>
      if info.found then List.intercalate [newlineChar] (mermaidLines info)
      else []

/-- Invariant of the hierarchy-builder loop, with `bnd` a strict bound on
start lines (one more than the number of processed lines) and `ids` the
ids of the frames still open: every recorded node started within the
processed region, a closed node closed at or after its start, and a node
not yet closed has its frame on the stack. -/
def NodesInv (bnd : Nat) (ids : List Nat) (nodes : List PNode) : Prop :=
  ∀ k nd, nodes[k]? = some nd →
    nd.start_line < bnd ∧
    (∀ e, nd.end_line = some e → nd.start_line ≤ e) ∧
    (nd.end_line = none → k ∈ ids)

/-! ### Order instances for the two sorting relations -/

instance : IsTotal (List Char) pathLe :=
  ⟨by
    intro a
    induction a with
    | nil => intro b; left; rfl
    | cons c as ih =>
      intro b
      cases b with
      | nil => right; rfl
      | cons d bs =>
        unfold pathLe leChars
        rcases lt_trichotomy c d with h | h | h
        · left; simp [h]
        · subst h
          simp only [lt_irrefl, if_false]
          exact ih bs
        · right; simp [h, not_lt_of_gt h]⟩

instance : IsTrans (List Char) pathLe :=
  ⟨by
    intro a
    induction a with
    | nil => intro b c _ _; rfl
    | cons x as ih =>
      intro b c hab hbc
      cases b with
      | nil => exact absurd hab (by simp [pathLe, leChars])
      | cons y bs =>
        cases c with
        | nil => exact absurd hbc (by simp [pathLe, leChars])
        | cons z cs =>
          unfold pathLe leChars at hab hbc ⊢
          rcases lt_trichotomy x y with h1 | h1 | h1
          · rcases lt_trichotomy y z with h2 | h2 | h2
            · simp [lt_trans h1 h2]
            · subst h2; simp [h1]
            · simp [h2, not_lt_of_gt h2] at hbc
          · subst h1
            rcases lt_trichotomy x z with h2 | h2 | h2
            · simp [h2]
            · subst h2
              simp only [lt_irrefl, if_false] at hab hbc ⊢
              exact ih bs cs hab hbc
            · simp [h2, not_lt_of_gt h2] at hbc
          · simp [h1, not_lt_of_gt h1] at hab⟩

instance : IsTotal (List Char × Nat) rankLe :=
  ⟨by
    intro a b
    unfold rankLe
    rcases lt_trichotomy a.2 b.2 with h | h | h
    · right; left; exact h
    · rcases total_of pathLe a.1 b.1 with h2 | h2
      · left; right; exact ⟨h, h2⟩
      · right; right; exact ⟨h.symm, h2⟩
    · left; left; exact h⟩

instance : IsTrans (List Char × Nat) rankLe :=
  ⟨by
    intro a b c hab hbc
    unfold rankLe at hab hbc ⊢
    rcases hab with h1 | ⟨h1, h1'⟩
    · rcases hbc with h2 | ⟨h2, h2'⟩
      · left; exact lt_trans h2 h1
      · left; omega
    · rcases hbc with h2 | ⟨h2, h2'⟩
      · left; omega
      · right; exact ⟨h1.trans h2, Trans.trans h1' h2'⟩⟩

end DtsParser

namespace DtsParser

/-! ## Claim theorems -/

/-- C1 (code bug): the lexical preprocessor is claimed to return text with
the same line count and newline positions as the input; on the input
`a/*\n*/b`, whose block comment spans two lines, `_strip_comments` drops
the newline inside the comment, returning `ab` and collapsing two lines
into one. -/
theorem C1_strip_comments_drops_block_newline :
    stripComments "a/*\n*/b".data = "ab".data ∧
    countNewlines "a/*\n*/b".data = 1 ∧
    countNewlines (stripComments "a/*\n*/b".data) = 0 := by decide

/-- C2 (code bug): a node whose opening and closing brace sit on the same
line is claimed to get `end_line` equal to that line.  On the input
`a { };` followed by a second line `x;`, the depth after line 1 equals the
recorded depth-at-open (the node's own closing brace is inside the
update), so the frame is never popped by the strictly-less test and the
node is only force-closed at the last line: `end_line` is 2, not 1. -/
theorem C2_same_line_node_end_line :
    (parse_dtsi_with_map "a \x7b \x7d;\nx;".data).nodes =
      [⟨none, "a".data, "a".data, 1, some 2, "/a".data⟩] := by decide

/-- C4 counterexample: on the single-line input
`cpus { cpu0: cpu@0 { }; };` the parser produces one node (only the first
node-opening match per line is honored), not the two nodes and one edge
the claim states. -/
theorem C4_counterexample :
    (parse_dtsi_with_map "cpus \x7b cpu0: cpu@0 \x7b \x7d; \x7d;".data).nodes.length = 1 ∧
    (parse_dtsi_with_map "cpus \x7b cpu0: cpu@0 \x7b \x7d; \x7d;".data).paths =
      ["/cpus".data] ∧
    (parse_dtsi_with_map "cpus \x7b cpu0: cpu@0 \x7b \x7d; \x7d;".data).edges = [] := by
  decide

/-- C4 (amended): parsing the single-line input
`cpus { cpu0: cpu@0 { }; };` yields exactly one node, with path `/cpus`
spanning line 1 to line 1, and no edges, because only the first
node-opening match per line is detected. -/
theorem C4_first_match_only :
    (parse_dtsi_with_map "cpus \x7b cpu0: cpu@0 \x7b \x7d; \x7d;".data).nodes =
      [⟨none, "cpus".data, "cpus".data, 1, some 1, "/cpus".data⟩] ∧
    (parse_dtsi_with_map "cpus \x7b cpu0: cpu@0 \x7b \x7d; \x7d;".data).paths =
      ["/cpus".data] ∧
    (parse_dtsi_with_map "cpus \x7b cpu0: cpu@0 \x7b \x7d; \x7d;".data).edges = [] := by
  decide

/-- C5: for any two path sets, the structural diff returns
`added = P_b − P_a` and `removed = P_a − P_b`, each sorted ascending in
lexicographic order and without duplicates, and when the two sets are
equal both results are empty. -/
theorem C5_diff_sorted_set_difference (Pa Pb : List (List Char)) :
    List.Sorted pathLe (diff_paths Pa Pb).1 ∧
    List.Sorted pathLe (diff_paths Pa Pb).2 ∧
    (diff_paths Pa Pb).1.Nodup ∧
    (diff_paths Pa Pb).2.Nodup ∧
    (∀ x, x ∈ (diff_paths Pa Pb).1 ↔ (x ∈ Pb ∧ x ∉ Pa)) ∧
    (∀ x, x ∈ (diff_paths Pa Pb).2 ↔ (x ∈ Pa ∧ x ∉ Pb)) ∧
    ((∀ x, x ∈ Pa ↔ x ∈ Pb) →
      (diff_paths Pa Pb).1 = [] ∧ (diff_paths Pa Pb).2 = []) := by
  have hmem1 : ∀ x, x ∈ (diff_paths Pa Pb).1 ↔ (x ∈ Pb ∧ x ∉ Pa) := by
    intro x
    simp [diff_paths, sortPaths, List.mem_insertionSort, List.mem_dedup, List.mem_filter]
  have hmem2 : ∀ x, x ∈ (diff_paths Pa Pb).2 ↔ (x ∈ Pa ∧ x ∉ Pb) := by
    intro x
    simp [diff_paths, sortPaths, List.mem_insertionSort, List.mem_dedup, List.mem_filter]
  refine ⟨?_, ?_, ?_, ?_, hmem1, hmem2, ?_⟩
  · exact List.sorted_insertionSort pathLe _
  · exact List.sorted_insertionSort pathLe _
  · exact ((List.perm_insertionSort pathLe _).nodup_iff).mpr (List.nodup_dedup _)
  · exact ((List.perm_insertionSort pathLe _).nodup_iff).mpr (List.nodup_dedup _)
  · intro h
    constructor
    · rw [List.eq_nil_iff_forall_not_mem]
      intro x hx
      rcases (hmem1 x).mp hx with ⟨hb, hna⟩
      exact hna ((h x).mpr hb)
    · rw [List.eq_nil_iff_forall_not_mem]
      intro x hx
      rcases (hmem2 x).mp hx with ⟨ha, hnb⟩
      exact hnb ((h x).mp ha)

/-- Witness for C5: instantiating the diff contract at equal singleton
path sets yields two empty results. -/
theorem C5_diff_witness :
    (diff_paths ["/a".data] ["/a".data]).1 = [] ∧
    (diff_paths ["/a".data] ["/a".data]).2 = [] :=
  (C5_diff_sorted_set_difference ["/a".data] ["/a".data]).2.2.2.2.2.2
    (fun _ => Iff.rfl)

/-- C6: when the preprocessed text contains neither `domain-idle-states`
nor `idle-states`, the idle extractor returns the bare not-found result
(`{"found": False}` with no other fields, modelled by `none`). -/
theorem C6_no_marker_not_found (content : List Char)
    (h1 : containsSub "domain-idle-states".data (stripComments content) = false)
    (h2 : containsSub "idle-states".data (stripComments content) = false) :
    extract_idle_info content = none := by
  unfold extract_idle_info
  simp [h1, h2]

/-- Witness for C6: the marker-free input `hello world` short-circuits to
the not-found result. -/
theorem C6_no_marker_witness : extract_idle_info "hello world".data = none :=
  C6_no_marker_not_found "hello world".data (by decide) (by decide)

/-- C7 counterexample: a text containing an idle marker and a `cpu_sleep`
block whose psci parameter is captured as the empty string (the captured
value `< >` strips to `""`); the parameter was captured
(`cpu_sleep_param = some ""`) yet `found` is false, because Python
truthiness treats the empty string like an absent capture. -/
theorem C7_counterexample :
    extract_idle_info
        "idle-states\ncpu_sleep: s \x7b\narm,psci-suspend-param = < >;\n\x7d;".data =
      some ⟨false, [0, 1, 2, 3], [0, 1, 2, 3], some [], none, false, false⟩ := by
  decide

/-- C7 (amended): for any input with an idle marker, `found` is true
exactly when a non-empty cpu-sleep or cluster-sleep parameter was
captured, or the matched CPU indices are non-empty and the cluster
power-domain flag is set; and the concrete scenario (a `cpu_sleep` block
with `arm,psci-suspend-param = <0x40000004>;` plus `domain-idle-states`)
yields `found = true` with `cpu_sleep_param = "0x40000004"`. -/
theorem C7_found_condition (content : List Char) (info : IdleInfo)
    (h : extract_idle_info content = some info) :
    (info.found = true ↔
      (truthyStr info.cpu_sleep_param = true ∨
       truthyStr info.cluster_sleep_param = true ∨
       (cpuIdxsOf (stripComments content) ≠ [] ∧ info.has_cluster_pd = true))) ∧
    extract_idle_info
        "domain-idle-states\ncpu_sleep: cpu-sleep-0 \x7b\narm,psci-suspend-param = <0x40000004>;\n\x7d;\n".data =
      some ⟨true, [0, 1, 2, 3], [0, 1, 2, 3], some "0x40000004".data, none,
        false, false⟩ := by
  refine ⟨?_, by decide⟩
  simp only [extract_idle_info] at h
  split at h
  · exact absurd h (by simp)
  · injection h with h
    subst h
    simp only [Bool.or_eq_true, Bool.and_eq_true, Bool.not_eq_true',
      List.isEmpty_eq_false]
    tauto

/-- Witness for C7: the concrete scenario input instantiates the found
condition. -/
theorem C7_found_witness :
    ∃ info,
      extract_idle_info
          "domain-idle-states\ncpu_sleep: cpu-sleep-0 \x7b\narm,psci-suspend-param = <0x40000004>;\n\x7d;\n".data =
        some info ∧
      (info.found = true ↔
        (truthyStr info.cpu_sleep_param = true ∨
         truthyStr info.cluster_sleep_param = true ∨
         (cpuIdxsOf (stripComments
            "domain-idle-states\ncpu_sleep: cpu-sleep-0 \x7b\narm,psci-suspend-param = <0x40000004>;\n\x7d;\n".data) ≠ [] ∧
          info.has_cluster_pd = true))) :=
  ⟨⟨true, [0, 1, 2, 3], [0, 1, 2, 3], some "0x40000004".data, none, false, false⟩,
    by decide,
    (C7_found_condition _ _ (by decide)).1⟩

/-- C8 counterexample: in a marker-bearing text with a
`cpu_pd0: power-domain-cpu0 {` label and no matched CPU index, the CPU
set is defaulted to `{0,1,2,3}`, but the power-domain set keeps its
matched value `[0]` rather than receiving the same default. -/
theorem C8_counterexample :
    extract_idle_info "idle-states\ncpu_pd0: power-domain-cpu0 \x7b\n".data =
      some ⟨false, [0, 1, 2, 3], [0], none, none, false, false⟩ ∧
    cpuIdxsOf (stripComments "idle-states\ncpu_pd0: power-domain-cpu0 \x7b\n".data) = [] := by
  decide

/-- C8 (amended): each index set receives the `{0,1,2,3}` default
independently, when that set itself matched nothing: the CPU set defaults
when no CPU index was matched, the power-domain set defaults when no
power-domain index was matched. -/
theorem C8_default_fill (content : List Char) (info : IdleInfo)
    (h : extract_idle_info content = some info) :
    (cpuIdxsOf (stripComments content) = [] → info.cpu_idxs = [0, 1, 2, 3]) ∧
    (pdIdxsOf (stripComments content) = [] → info.pd_idxs = [0, 1, 2, 3]) := by
  simp only [extract_idle_info] at h
  split at h
  · exact absurd h (by simp)
  · injection h with h
    subst h
    constructor
    · intro hc; simp [hc]
    · intro hc; simp [hc]

/-- Witness for C8: an input that is just the marker matches neither
pattern, so both sets are defaulted. -/
theorem C8_default_fill_witness :
    ∃ info, extract_idle_info "idle-states".data = some info ∧
      info.cpu_idxs = [0, 1, 2, 3] ∧ info.pd_idxs = [0, 1, 2, 3] := by
  have h := C8_default_fill "idle-states".data
    ⟨false, [0, 1, 2, 3], [0, 1, 2, 3], none, none, false, false⟩ (by decide)
  exact ⟨_, by decide, h.1 (by decide), h.2 (by decide)⟩

/-! ### The hierarchy-builder invariant (claim C3) -/

theorem setEndLine_getElem_self (i idx : Nat) (nodes : List PNode) :
    (setEndLine i idx nodes)[i]? =
      (nodes[i]?).map (fun nd => { nd with end_line := some idx }) := by
  induction nodes generalizing i with
  | nil => cases i <;> simp [setEndLine]
  | cons nd rest ih =>
    cases i with
    | zero => simp [setEndLine]
    | succ j => simpa [setEndLine] using ih j

theorem setEndLine_getElem_ne (i idx k : Nat) (nodes : List PNode) (h : k ≠ i) :
    (setEndLine i idx nodes)[k]? = nodes[k]? := by
  induction nodes generalizing i k with
  | nil => cases i <;> simp [setEndLine]
  | cons nd rest ih =>
    cases i with
    | zero =>
      cases k with
      | zero => exact absurd rfl h
      | succ k' => simp [setEndLine]
    | succ j =>
      cases k with
      | zero => simp [setEndLine]
      | succ k' => simpa [setEndLine] using ih j k' (by omega)

theorem NodesInv.mono {bnd bnd' : Nat} {ids ids' : List Nat} {nodes : List PNode}
    (h : NodesInv bnd ids nodes) (hb : bnd ≤ bnd') (hi : ∀ x ∈ ids, x ∈ ids') :
    NodesInv bnd' ids' nodes := by
  intro k nd hk
  obtain ⟨h1, h2, h3⟩ := h k nd hk
  exact ⟨lt_of_lt_of_le h1 hb, h2, fun he => hi _ (h3 he)⟩

/-- Stamping the top frame's node with a line `idx` at least as late as
every recorded start preserves the invariant with that frame removed. -/
theorem NodesInv.setEnd {bnd : Nat} {ids : List Nat} {nodes : List PNode}
    {i idx : Nat} (h : NodesInv bnd (i :: ids) nodes) (hidx : bnd ≤ idx + 1) :
    NodesInv bnd ids (setEndLine i idx nodes) := by
  intro k nd hk
  by_cases hki : k = i
  · subst hki
    rw [setEndLine_getElem_self] at hk
    match hsrc : nodes[k]? with
    | none => rw [hsrc] at hk; simp at hk
    | some nd0 =>
      rw [hsrc] at hk
      simp only [Option.map_some'] at hk
      injection hk with hk
      subst hk
      obtain ⟨h1, _, _⟩ := h k nd0 hsrc
      refine ⟨h1, ?_, ?_⟩
      · intro e he
        simp only at he
        injection he with he
        subst he
        show nd0.start_line ≤ idx
        omega
      · intro he
        simp at he
  · rw [setEndLine_getElem_ne i idx k nodes hki] at hk
    obtain ⟨h1, h2, h3⟩ := h k nd hk
    refine ⟨h1, h2, fun he => ?_⟩
    rcases List.mem_cons.mp (h3 he) with h | h
    · exact absurd h hki
    · exact h

theorem closeFrames_inv (idx : Nat) (depth : Int) :
    ∀ (stack : List Frame) (nodes : List PNode),
      NodesInv (idx + 1) (stack.map Frame.id) nodes →
      NodesInv (idx + 1) ((closeFrames idx depth stack nodes).1.map Frame.id)
        (closeFrames idx depth stack nodes).2
  | [], nodes, h => by simpa [closeFrames] using h
  | top :: rest, nodes, h => by
    unfold closeFrames
    by_cases hd : depth < top.brace_depth_at_open
    · simp only [if_pos hd]
      exact closeFrames_inv idx depth rest (setEndLine top.id idx nodes)
        (NodesInv.setEnd (by simpa using h) (le_refl _))
    · simp only [if_neg hd]
      exact h

theorem stepLine_inv (idx : Nat) (l : List Char) (st : ParseState)
    (h : NodesInv idx (st.stack.map Frame.id) st.nodes) :
    NodesInv (idx + 1) ((stepLine idx l st).stack.map Frame.id)
      (stepLine idx l st).nodes := by
  unfold stepLine
  cases hm : matchNodeOpen (rstripChars l) with
  | none =>
    simp only [hm]
    exact closeFrames_inv idx _ _ _ (h.mono (Nat.le_succ idx) (fun x hx => hx))
  | some res =>
    obtain ⟨label, name⟩ := res
    simp only [hm]
    apply closeFrames_inv
    intro k nd hk
    simp only [List.map_cons] at *
    rw [List.getElem?_append] at hk
    by_cases hlt : k < st.nodes.length
    · rw [if_pos hlt] at hk
      obtain ⟨h1, h2, h3⟩ := h k nd hk
      exact ⟨Nat.lt_succ_of_lt h1, h2, fun he => List.mem_cons_of_mem _ (h3 he)⟩
    · rw [if_neg hlt] at hk
      rcases Nat.lt_or_ge (k - st.nodes.length) 1 with hk1 | hk1
      · have hk0 : k - st.nodes.length = 0 := by omega
        rw [hk0] at hk
        simp only [List.getElem?_cons_zero] at hk
        injection hk with hk
        subst hk
        refine ⟨Nat.lt_succ_self idx, ?_, ?_⟩
        · intro e he; simp at he
        · intro _
          have : k = st.nodes.length := by omega
          subst this
          exact List.mem_cons_self _ _
      · rw [List.getElem?_eq_none (by simpa using hk1)] at hk
        simp at hk

theorem runLines_inv :
    ∀ (ls : List (List Char)) (idx : Nat) (st : ParseState),
      NodesInv idx (st.stack.map Frame.id) st.nodes →
      NodesInv (idx + ls.length) ((runLines idx ls st).stack.map Frame.id)
        (runLines idx ls st).nodes
  | [], idx, st, h => by simpa [runLines] using h
  | l :: ls, idx, st, h => by
    have := runLines_inv ls (idx + 1) (stepLine idx l st) (stepLine_inv idx l st h)
    simp only [runLines, List.length_cons]
    have harith : idx + 1 + ls.length = idx + (ls.length + 1) := by omega
    rw [harith] at this
    exact this

theorem forceClose_all (L : Nat) (stack : List Frame) :
    ∀ (nodes : List PNode),
      NodesInv (L + 1) (stack.map Frame.id) nodes →
      ∀ (k : Nat) (nd : PNode), (forceClose L stack nodes)[k]? = some nd →
        ∃ e, nd.end_line = some e ∧ nd.start_line ≤ e := by
  induction stack with
  | nil =>
    intro nodes h k nd hk
    simp only [forceClose] at hk
    obtain ⟨h1, h2, h3⟩ := h k nd hk
    match he : nd.end_line with
    | none => exact absurd (h3 he) (by simp)
    | some e => exact ⟨e, rfl, h2 e he⟩
  | cons top rest ih =>
    intro nodes h k nd hk
    simp only [forceClose] at hk
    exact ih (setEndLine top.id L nodes)
      (NodesInv.setEnd (by simpa using h) (le_refl _)) k nd hk

/-- C3: for every input (in particular every input with balanced braces),
every node of the parse result has `end_line` set and
`start_line ≤ end_line`; the forced close at end of input guarantees it
for frames still open. -/
theorem C3_end_line_set_and_ordered (content : List Char) :
    ∀ nd ∈ (parse_dtsi_with_map content).nodes,
      ∃ e, nd.end_line = some e ∧ nd.start_line ≤ e := by
  intro nd hmem
  obtain ⟨k, hk⟩ := List.getElem?_of_mem hmem
  simp only [parse_dtsi_with_map] at hk
  have hinit : NodesInv 1 (initState.stack.map Frame.id) initState.nodes := by
    intro k nd h
    simp [initState] at h
  have hinv := runLines_inv (splitlines (stripComments content)) 1 initState hinit
  by_cases hnil : splitlines (stripComments content) = []
  · rw [if_pos hnil] at hk
    rw [hnil] at hk
    simp [runLines, initState] at hk
  · rw [if_neg hnil] at hk
    exact forceClose_all _ _ _ (hinv.mono (by omega) (fun x hx => hx)) k nd hk

/-- Witness for C3: the node parsed from the unbalanced input `a {` is
force-closed with `end_line = 1 ≥ start_line`. -/
theorem C3_end_line_witness :
    ∃ e, (⟨none, "a".data, "a".data, 1, some 1, "/a".data⟩ : PNode).end_line = some e ∧
      (⟨none, "a".data, "a".data, 1, some 1, "/a".data⟩ : PNode).start_line ≤ e :=
  C3_end_line_set_and_ordered "a \x7b".data _ (by decide)


/-! ### Counting lemmas for the subsystem summarizer (claim C9) -/

theorem topNameFromPath_ne_nil {p t : List Char}
    (h : topNameFromPath p = some t) : t ≠ [] := by
  unfold topNameFromPath at h
  match hm : (splitOnChar slash p).filter (· ≠ []) with
  | [] => rw [hm] at h; simp at h
  | s :: rest =>
    rw [hm] at h
    injection h with h
    rw [← h]
    have : s ∈ (splitOnChar slash p).filter (· ≠ []) := by
      rw [hm]; exact List.mem_cons_self _ _
    simpa using (List.mem_filter.mp this).2

theorem secondNameFromPath_ne_nil {p t : List Char}
    (h : secondNameFromPath p = some t) : t ≠ [] := by
  unfold secondNameFromPath at h
  match hm : (splitOnChar slash p).filter (· ≠ []) with
  | [] => rw [hm] at h; simp at h
  | [s] => rw [hm] at h; simp at h
  | s :: t' :: rest =>
    rw [hm] at h
    injection h with h
    rw [← h]
    have : t' ∈ (splitOnChar slash p).filter (· ≠ []) := by
      rw [hm]; exact List.mem_cons_of_mem _ (List.mem_cons_self _ _)
    simpa using (List.mem_filter.mp this).2

theorem rootKey_eq_top : rootKey = topNameFromPath := by
  funext p
  unfold rootKey
  match h : topNameFromPath p with
  | none => rfl
  | some t => simp [topNameFromPath_ne_nil h]

theorem socKey_iff (q k : List Char) :
    socKey q = some k ↔
      (topNameFromPath q = some "soc".data ∧ secondNameFromPath q = some k) := by
  unfold socKey
  match htop : topNameFromPath q with
  | none => simp
  | some t =>
    have hne := topNameFromPath_ne_nil htop
    simp only [if_neg hne]
    by_cases hsoc : t = "soc".data
    · subst hsoc
      simp only [if_pos rfl]
      match hsec : secondNameFromPath q with
      | none => simp
      | some s =>
        have hsne := secondNameFromPath_ne_nil hsec
        simp [hsne]
    · simp [if_neg hsoc, hsoc]

theorem overviewStep_eq (acc : List (List Char × Nat) × List (List Char × Nat))
    (p : List Char) :
    overviewStep acc p = (bumpOpt rootKey acc.1 p, bumpOpt socKey acc.2 p) := by
  unfold overviewStep bumpOpt rootKey socKey
  match htop : topNameFromPath p with
  | none => rfl
  | some t =>
    simp only
    by_cases ht : t = []
    · simp [ht]
    · simp only [if_neg ht]
      by_cases hsoc : t = "soc".data
      · simp only [if_pos hsoc]
        match hsec : secondNameFromPath p with
        | none => rfl
        | some s =>
          simp only
          by_cases hs : s = []
          · simp [hs]
          · simp [hs]
      · simp [if_neg hsoc]


theorem bumpCount_keys (k : List Char) (m : List (List Char × Nat)) :
    (bumpCount k m).map Prod.fst =
      if k ∈ m.map Prod.fst then m.map Prod.fst else m.map Prod.fst ++ [k] := by
  induction m with
  | nil => simp [bumpCount]
  | cons kn rest ih =>
    obtain ⟨k', n⟩ := kn
    by_cases hk : k' = k
    · subst hk
      simp [bumpCount]
    · simp only [bumpCount, if_neg hk, List.map_cons, ih]
      by_cases hmem : k ∈ rest.map Prod.fst
      · simp [hmem, hk]
      · have : ¬ (k = k' ∨ k ∈ rest.map Prod.fst) := by
          rintro (h | h)
          · exact hk h.symm
          · exact hmem h
        simp only [List.mem_cons]
        rw [if_neg this, if_neg hmem]
        simp

theorem bumpCount_mem (k : List Char) (m : List (List Char × Nat))
    (hnd : (m.map Prod.fst).Nodup) :
    ∀ kn ∈ bumpCount k m,
      (kn.1 ≠ k ∧ kn ∈ m) ∨
      (kn.1 = k ∧ ∃ n0, kn.2 = n0 + 1 ∧
        ((k, n0) ∈ m ∨ (n0 = 0 ∧ k ∉ m.map Prod.fst))) := by
  induction m with
  | nil =>
    intro kn hkn
    simp only [bumpCount, List.mem_singleton] at hkn
    subst hkn
    exact Or.inr ⟨rfl, 0, rfl, Or.inr ⟨rfl, by simp⟩⟩
  | cons hd rest ih =>
    obtain ⟨k', n⟩ := hd
    intro kn hkn
    simp only [List.map_cons, List.nodup_cons] at hnd
    by_cases hk : k' = k
    · subst hk
      simp only [bumpCount, eq_self_iff_true, if_true, List.mem_cons] at hkn
      rcases hkn with hkn | hkn
      · subst hkn
        exact Or.inr ⟨rfl, n, rfl, Or.inl (List.mem_cons_self _ _)⟩
      · left
        constructor
        · intro heq
          exact hnd.1 (heq ▸ List.mem_map_of_mem Prod.fst hkn)
        · exact List.mem_cons_of_mem _ hkn
    · simp only [bumpCount, if_neg hk, List.mem_cons] at hkn
      rcases hkn with hkn | hkn
      · subst hkn
        exact Or.inl ⟨fun h => hk h, List.mem_cons_self _ _⟩
      · rcases ih hnd.2 kn hkn with ⟨h1, h2⟩ | ⟨h1, n0, h2, h3⟩
        · exact Or.inl ⟨h1, List.mem_cons_of_mem _ h2⟩
        · refine Or.inr ⟨h1, n0, h2, ?_⟩
          rcases h3 with h3 | ⟨h3, h4⟩
          · exact Or.inl (List.mem_cons_of_mem _ h3)
          · refine Or.inr ⟨h3, ?_⟩
            simp only [List.map_cons, List.mem_cons]
            rintro (h | h)
            · exact hk h.symm
            · exact h4 h


theorem CountInv.step {f : List Char → Option (List Char)}
    {Q : List (List Char)} {m : List (List Char × Nat)} (h : CountInv f Q m)
    (p : List Char) : CountInv f (Q ++ [p]) (bumpOpt f m p) := by
  obtain ⟨hnd, hent, hmiss⟩ := h
  have hcount : ∀ (k : List Char),
      (Q ++ [p]).countP (fun q => decide (f q = some k)) =
        Q.countP (fun q => decide (f q = some k)) +
          (if f p = some k then 1 else 0) := by
    intro k
    rw [List.countP_append]
    by_cases hfp : f p = some k
    · simp [List.countP_cons, hfp]
    · simp [List.countP_cons, hfp]
  unfold bumpOpt
  match hfp : f p with
  | none =>
    refine ⟨hnd, ?_, ?_⟩
    · intro kn hkn
      have he := hent kn hkn
      rw [hcount kn.1, hfp]
      simp only [reduceCtorEq, if_false]
      omega
    · intro k hk
      have he := hmiss k hk
      rw [hcount k, hfp]
      simp only [reduceCtorEq, if_false]
      omega
  | some k0 =>
    refine ⟨?_, ?_, ?_⟩
    · rw [bumpCount_keys]
      by_cases hmem : k0 ∈ m.map Prod.fst
      · simp [hmem, hnd]
      · simp [hmem, hnd, List.nodup_append]
    · intro kn hkn
      rcases bumpCount_mem k0 m hnd kn hkn with ⟨h1, h2⟩ | ⟨h1, n0, h2, h3⟩
      · have he := hent kn h2
        rw [hcount kn.1, hfp,
          if_neg (fun hc => h1 (Option.some.inj hc).symm)]
        omega
      · rw [hcount kn.1, h1, hfp, if_pos rfl, h2]
        rcases h3 with h3 | ⟨h3, h4⟩
        · have he := hent (k0, n0) h3
          simp only at he
          omega
        · have he := hmiss k0 h4
          rw [h3]
          omega
    · intro k hk
      rw [bumpCount_keys] at hk
      have hknotin : k ∉ m.map Prod.fst ∧ k ≠ k0 := by
        by_cases hmem : k0 ∈ m.map Prod.fst
        · rw [if_pos hmem] at hk
          constructor
          · exact hk
          · intro heq; exact hk (heq ▸ hmem)
        · rw [if_neg hmem] at hk
          simp only [List.mem_append, List.mem_singleton] at hk
          push_neg at hk
          exact hk
      have he := hmiss k hknotin.1
      rw [hcount k, hfp,
        if_neg (fun hc => hknotin.2 (Option.some.inj hc).symm)]
      omega

theorem CountInv.foldl {f : List Char → Option (List Char)} :
    ∀ (ps : List (List Char)) (m : List (List Char × Nat)) (Q : List (List Char)),
      CountInv f Q m → CountInv f (Q ++ ps) (ps.foldl (bumpOpt f) m)
  | [], m, Q, h => by simpa using h
  | p :: ps, m, Q, h => by
    have ih := CountInv.foldl ps (bumpOpt f m p) (Q ++ [p]) (h.step p)
    rw [List.foldl_cons]
    have harr : Q ++ p :: ps = (Q ++ [p]) ++ ps := by
      rw [List.append_assoc]
      rfl
    rw [harr]
    exact ih

theorem CountInv.nil (f : List Char → Option (List Char)) : CountInv f [] [] := by
  refine ⟨by simp, by simp, by simp⟩

theorem foldl_overviewStep :
    ∀ (ps : List (List Char)) (m1 m2 : List (List Char × Nat)),
      ps.foldl overviewStep (m1, m2) =
        (ps.foldl (bumpOpt rootKey) m1, ps.foldl (bumpOpt socKey) m2)
  | [], m1, m2 => rfl
  | p :: ps, m1, m2 => by
    simp only [List.foldl_cons, overviewStep_eq]
    exact foldl_overviewStep ps _ _


/-- C9: the subsystem summarizer returns at most 18 root-group entries,
ranked by descending population with ties broken by ascending
lexicographic name, where each entry's count is the number of parsed
paths whose first non-empty segment is the entry's name; the `soc`
second-level list obeys the same bound, ranking and counting (over second
segments).  The cap holds for every input, in particular one with 5,000
distinct top-level groups. -/
theorem C9_overview_ranked_capped (content : List Char) :
    (overviewRootSorted content 18).length ≤ 18 ∧
    List.Sorted rankLe (overviewRootSorted content 18) ∧
    (∀ e ∈ overviewRootSorted content 18,
      e.2 = (parse_dtsi_with_map content).paths.countP
        (fun p => decide (topNameFromPath p = some e.1))) ∧
    (overviewSocSorted content 18).length ≤ 18 ∧
    List.Sorted rankLe (overviewSocSorted content 18) ∧
    (∀ e ∈ overviewSocSorted content 18,
      e.2 = (parse_dtsi_with_map content).paths.countP
        (fun p => decide (topNameFromPath p = some ("soc".data) ∧
                          secondNameFromPath p = some e.1))) := by
  set paths := (parse_dtsi_with_map content).paths with hpaths
  have hfold : overviewCounts paths =
      (paths.foldl (bumpOpt rootKey) [], paths.foldl (bumpOpt socKey) []) :=
    foldl_overviewStep paths [] []
  have hroot : CountInv rootKey paths (paths.foldl (bumpOpt rootKey) []) := by
    have := CountInv.foldl paths [] [] (CountInv.nil rootKey)
    simpa using this
  have hsoc : CountInv socKey paths (paths.foldl (bumpOpt socKey) []) := by
    have := CountInv.foldl paths [] [] (CountInv.nil socKey)
    simpa using this
  refine ⟨List.length_take_le _ _, ?_, ?_, List.length_take_le _ _, ?_, ?_⟩
  · exact List.Pairwise.sublist (List.take_sublist _ _)
      (List.sorted_insertionSort rankLe _)
  · intro e he
    have hmem : e ∈ (overviewCounts paths).1 := by
      have h1 := List.mem_of_mem_take he
      simp only [overviewRootSorted] at h1
      exact (List.mem_insertionSort rankLe).mp h1
    rw [hfold] at hmem
    have := hroot.2.1 e hmem
    rw [rootKey_eq_top] at this
    exact this
  · exact List.Pairwise.sublist (List.take_sublist _ _)
      (List.sorted_insertionSort rankLe _)
  · intro e he
    have hmem : e ∈ (overviewCounts paths).2 := by
      have h1 := List.mem_of_mem_take he
      simp only [overviewSocSorted] at h1
      exact (List.mem_insertionSort rankLe).mp h1
    rw [hfold] at hmem
    have hcnt := hsoc.2.1 e hmem
    have hfuneq : (fun q => decide (socKey q = some e.1)) =
        (fun p => decide (topNameFromPath p = some ("soc".data) ∧
                          secondNameFromPath p = some e.1)) := by
      funext q
      rw [decide_eq_decide]
      exact socKey_iff q e.1
    rw [hfuneq] at hcnt
    exact hcnt


/-- Witness for C9: a one-node input yields the single root entry
`("cpus", 1)` within the cap. -/
theorem C9_overview_witness :
    (overviewRootSorted "cpus \x7b\n\x7d;".data 18).length ≤ 18 ∧
    ("cpus".data, 1).2 = (parse_dtsi_with_map "cpus \x7b\n\x7d;".data).paths.countP
      (fun p => decide (topNameFromPath p = some ("cpus".data, 1).1)) := by
  have h := C9_overview_ranked_capped "cpus \x7b\n\x7d;".data
  exact ⟨h.1, h.2.2.1 ("cpus".data, 1) (by decide)⟩


/-! ### Decimal-rendering and diagram-line lemmas (claim C10) -/

theorem digitChar_isDigit {d : Nat} (h : d < 10) : (digitChar d).isDigit = true := by
  interval_cases d <;> decide

theorem digitChar_toNat {d : Nat} (h : d < 10) : (digitChar d).toNat = 48 + d := by
  interval_cases d <;> decide

theorem natDigitsAux_ne_nil {fuel n : Nat} (h : n < fuel) :
    natDigitsAux fuel n ≠ [] := by
  induction fuel generalizing n with
  | zero => omega
  | succ fuel ih =>
    unfold natDigitsAux
    by_cases h10 : n < 10
    · simp [h10]
    · simp only [h10, if_false]
      intro hcon
      rcases List.append_eq_nil.mp hcon with ⟨-, h2⟩
      exact absurd h2 (by simp)

theorem natDigitsAux_all_digits {fuel n : Nat} (h : n < fuel) :
    ∀ c ∈ natDigitsAux fuel n, c.isDigit = true := by
  induction fuel generalizing n with
  | zero => omega
  | succ fuel ih =>
    unfold natDigitsAux
    by_cases h10 : n < 10
    · simp only [h10, if_true]
      intro c hc
      rw [List.mem_singleton] at hc
      subst hc
      exact digitChar_isDigit h10
    · simp only [h10, if_false]
      intro c hc
      rcases List.mem_append.mp hc with hc | hc
      · exact ih (by omega) c hc
      · rw [List.mem_singleton] at hc
        subst hc
        exact digitChar_isDigit (Nat.mod_lt n (by omega))

theorem natDigitsAux_foldl {fuel n : Nat} (h : n < fuel) (a : Nat) :
    (natDigitsAux fuel n).foldl (fun x c => 10 * x + (c.toNat - 48)) a =
      a * 10 ^ (natDigitsAux fuel n).length + n := by
  induction fuel generalizing n a with
  | zero => omega
  | succ fuel ih =>
    unfold natDigitsAux
    by_cases h10 : n < 10
    · simp only [h10, if_true, List.foldl_cons, List.foldl_nil, List.length_singleton]
      rw [digitChar_toNat h10]
      ring_nf
      omega
    · simp only [h10, if_false, List.foldl_append, List.foldl_cons, List.foldl_nil,
        List.length_append, List.length_singleton]
      rw [ih (by omega), digitChar_toNat (Nat.mod_lt n (by omega))]
      have : (48 : Nat) + n % 10 - 48 = n % 10 := by omega
      rw [this, pow_succ]
      have hdm := Nat.div_add_mod n 10
      ring_nf
      omega

theorem natOfDigits_natDigits (n : Nat) : natOfDigits (natDigits n) = n := by
  unfold natOfDigits natDigits
  rw [natDigitsAux_foldl (Nat.lt_succ_self n)]
  simp

theorem natDigits_injective {m n : Nat} (h : natDigits m = natDigits n) : m = n := by
  have := congrArg natOfDigits h
  rwa [natOfDigits_natDigits, natOfDigits_natDigits] at this

theorem natDigits_ne_nil (n : Nat) : natDigits n ≠ [] :=
  natDigitsAux_ne_nil (Nat.lt_succ_self n)

theorem natDigits_all_digits (n : Nat) : ∀ c ∈ natDigits n, c.isDigit = true :=
  natDigitsAux_all_digits (Nat.lt_succ_self n)

theorem natDigits_head_digit (n : Nat) :
    ∃ c cs, natDigits n = c :: cs ∧ c.isDigit = true := by
  match hd : natDigits n with
  | [] => exact absurd hd (natDigits_ne_nil n)
  | c :: cs =>
    refine ⟨c, cs, rfl, ?_⟩
    exact natDigits_all_digits n c (by rw [hd]; exact List.mem_cons_self _ _)


theorem isPrefixChars_append_self : ∀ (p r : List Char),
    isPrefixChars p (p ++ r) = true
  | [], _ => rfl
  | c :: cs, r => by
    simp only [List.cons_append, isPrefixChars]
    simp [isPrefixChars_append_self cs r]

theorem isPrefixChars_append_le : ∀ (p a r : List Char),
    p.length ≤ a.length → isPrefixChars p (a ++ r) = isPrefixChars p a
  | [], _, _, _ => rfl
  | c :: cs, [], r, h => by simp at h
  | c :: cs, b :: bs, r, h => by
    simp only [List.cons_append, isPrefixChars, List.append_eq]
    rw [isPrefixChars_append_le cs bs r (by simpa using h)]

theorem isPrefixChars_append_mismatch : ∀ (p a r : List Char),
    isPrefixChars (p.take a.length) a = false →
    isPrefixChars p (a ++ r) = false
  | [], a, r, h => by simp [isPrefixChars] at h
  | c :: cs, [], r, h => by simp [isPrefixChars] at h
  | c :: cs, b :: bs, r, h => by
    simp only [List.length_cons, List.take_succ_cons, isPrefixChars] at h
    simp only [List.cons_append, isPrefixChars, List.append_eq]
    rcases Bool.and_eq_false_iff.mp h with h | h
    · simp [h]
    · rw [isPrefixChars_append_mismatch cs bs r h]
      simp

theorem ne_of_prefix_discr {x y : List Char} (p : List Char)
    (hx : isPrefixChars p x = true) (hy : isPrefixChars p y = false) : x ≠ y := by
  intro h
  rw [h, hy] at hx
  cases hx

theorem digit_prefix_cancel :
    ∀ (d1 d2 x y : List Char),
      (∀ c ∈ d1, c.isDigit = true) → (∀ c ∈ d2, c.isDigit = true) →
      (∀ c, x.head? = some c → c.isDigit = false) →
      (∀ c, y.head? = some c → c.isDigit = false) →
      d1 ++ x = d2 ++ y → d1 = d2 ∧ x = y
  | [], [], x, y, _, _, _, _, h => ⟨rfl, by simpa using h⟩
  | [], c2 :: d2, x, y, _, hd2, hx, _, h => by
    simp only [List.nil_append, List.cons_append] at h
    have hcx : x.head? = some c2 := by rw [h]; rfl
    have := hx c2 hcx
    have := hd2 c2 (List.mem_cons_self _ _)
    simp_all
  | c1 :: d1, [], x, y, hd1, _, _, hy, h => by
    simp only [List.nil_append, List.cons_append] at h
    have hcy : y.head? = some c1 := by rw [← h]; rfl
    have := hy c1 hcy
    have := hd1 c1 (List.mem_cons_self _ _)
    simp_all
  | c1 :: d1, c2 :: d2, x, y, hd1, hd2, hx, hy, h => by
    simp only [List.cons_append, List.cons.injEq] at h
    obtain ⟨hc, ht⟩ := h
    obtain ⟨hd, hxy⟩ := digit_prefix_cancel d1 d2 x y
      (fun c hc => hd1 c (List.mem_cons_of_mem _ hc))
      (fun c hc => hd2 c (List.mem_cons_of_mem _ hc)) hx hy ht
    exact ⟨by rw [hc, hd], hxy⟩

theorem natDigits_append_cancel {i j : Nat} (x y : List Char)
    (hx : ∀ c, x.head? = some c → c.isDigit = false)
    (hy : ∀ c, y.head? = some c → c.isDigit = false)
    (h : natDigits i ++ x = natDigits j ++ y) : i = j ∧ x = y := by
  obtain ⟨hd, hxy⟩ := digit_prefix_cancel _ _ _ _
    (natDigits_all_digits i) (natDigits_all_digits j) hx hy h
  exact ⟨natDigits_injective hd, hxy⟩


theorem cpuDeclLine_prefix (i : Nat) :
    isPrefixChars "    C".data (cpuDeclLine i) = true := by
  unfold cpuDeclLine
  simp only [List.append_assoc]
  rw [isPrefixChars_append_le _ _ _ (by decide)]
  decide

theorem cpuDeclLine_mem (info : IdleInfo) (i : Nat) :
    cpuDeclLine i ∈ mermaidLines info ↔ i ∈ info.cpu_idxs.take 8 := by
  constructor
  · intro h
    have hP := cpuDeclLine_prefix i
    simp only [mermaidLines, List.mem_append, List.mem_cons, List.mem_map,
      List.not_mem_nil, or_false, List.mem_singleton] at h
    rcases h with ((((((((((((h|h|h)|⟨a,ha,h⟩)|h)|h)|h)|⟨a,ha,h⟩)|h)|h)|h)|h)|⟨a,ha,h⟩)|⟨a,ha,h⟩)|h|h|h
    · exact absurd h (ne_of_prefix_discr _ hP (by decide))
    · exact absurd h (ne_of_prefix_discr _ hP (by decide))
    · exact absurd h (ne_of_prefix_discr _ hP (by decide))
    · -- the cpu declaration segment: cancellation gives a = i
      unfold cpuDeclLine at h
      simp only [List.append_assoc] at h
      have h2 := List.append_cancel_left h
      obtain ⟨hai, -⟩ := natDigits_append_cancel
        ("[\"CPU".data ++ (natDigits a ++ "\"]".data))
        ("[\"CPU".data ++ (natDigits i ++ "\"]".data))
        (by intro c hc; injection hc with hc; rw [← hc]; decide)
        (by intro c hc; injection hc with hc; rw [← hc]; decide) h2
      rw [← hai]
      exact ha
    · exact absurd h (ne_of_prefix_discr _ hP (by decide))
    · refine absurd h (ne_of_prefix_discr _ hP ?_)
      unfold cpuIdleLine
      simp only [List.append_assoc]
      exact isPrefixChars_append_mismatch _ _ _ (by decide)
    · exact absurd h (ne_of_prefix_discr _ hP (by decide))
    · refine absurd h.symm (ne_of_prefix_discr _ hP ?_)
      unfold pdDeclLine
      simp only [List.append_assoc]
      rw [isPrefixChars_append_le _ _ _ (by decide)]
      decide
    · exact absurd h (ne_of_prefix_discr _ hP (by decide))
    · refine absurd h (ne_of_prefix_discr _ hP ?_)
      unfold clusterIdleLine
      simp only [List.append_assoc]
      exact isPrefixChars_append_mismatch _ _ _ (by decide)
    · exact absurd h (ne_of_prefix_discr _ hP (by decide))
    · exact absurd h (ne_of_prefix_discr _ hP (by decide))
    · refine absurd h.symm (ne_of_prefix_discr _ hP ?_)
      split
      · unfold cpuPdLink
        simp only [List.append_assoc]
        exact isPrefixChars_append_mismatch _ _ _ (by decide)
      · unfold cpuIdleLink
        simp only [List.append_assoc]
        exact isPrefixChars_append_mismatch _ _ _ (by decide)
    · refine absurd h.symm (ne_of_prefix_discr _ hP ?_)
      unfold pdIdleLink
      simp only [List.append_assoc]
      exact isPrefixChars_append_mismatch _ _ _ (by decide)
    · exact absurd h (ne_of_prefix_discr _ hP (by decide))
    · exact absurd h (ne_of_prefix_discr _ hP (by decide))
    · exact absurd h (ne_of_prefix_discr _ hP (by decide))
  · intro hi
    simp only [mermaidLines, List.mem_append, List.mem_cons, List.mem_map,
      List.not_mem_nil, or_false, List.mem_singleton]
    iterate 11 left
    right
    exact ⟨i, hi, rfl⟩


theorem pdDeclLine_prefix (i : Nat) :
    isPrefixChars "    P".data (pdDeclLine i) = true := by
  unfold pdDeclLine
  simp only [List.append_assoc]
  rw [isPrefixChars_append_le _ _ _ (by decide)]
  decide

theorem pdDeclLine_mem (info : IdleInfo) (i : Nat) :
    pdDeclLine i ∈ mermaidLines info ↔ i ∈ info.pd_idxs.take 8 := by
  constructor
  · intro h
    have hP := pdDeclLine_prefix i
    simp only [mermaidLines, List.mem_append, List.mem_cons, List.mem_map,
      List.not_mem_nil, or_false, List.mem_singleton] at h
    rcases h with ((((((((((((h|h|h)|⟨a,ha,h⟩)|h)|h)|h)|⟨a,ha,h⟩)|h)|h)|h)|h)|⟨a,ha,h⟩)|⟨a,ha,h⟩)|h|h|h
    · exact absurd h (ne_of_prefix_discr _ hP (by decide))
    · exact absurd h (ne_of_prefix_discr _ hP (by decide))
    · exact absurd h (ne_of_prefix_discr _ hP (by decide))
    · refine absurd h.symm (ne_of_prefix_discr _ hP ?_)
      unfold cpuDeclLine
      simp only [List.append_assoc]
      rw [isPrefixChars_append_le _ _ _ (by decide)]
      decide
    · exact absurd h (ne_of_prefix_discr _ hP (by decide))
    · refine absurd h (ne_of_prefix_discr _ hP ?_)
      unfold cpuIdleLine
      simp only [List.append_assoc]
      exact isPrefixChars_append_mismatch _ _ _ (by decide)
    · exact absurd h (ne_of_prefix_discr _ hP (by decide))
    · -- the pd declaration segment: cancellation gives a = i
      unfold pdDeclLine at h
      simp only [List.append_assoc] at h
      have h2 := List.append_cancel_left h
      obtain ⟨hai, -⟩ := natDigits_append_cancel
        ("[\"cpu_pd".data ++ (natDigits a ++ "\"]".data))
        ("[\"cpu_pd".data ++ (natDigits i ++ "\"]".data))
        (by intro c hc; injection hc with hc; rw [← hc]; decide)
        (by intro c hc; injection hc with hc; rw [← hc]; decide) h2
      rw [← hai]
      exact ha
    · exact absurd h (ne_of_prefix_discr _ hP (by decide))
    · refine absurd h (ne_of_prefix_discr _ hP ?_)
      unfold clusterIdleLine
      simp only [List.append_assoc]
      exact isPrefixChars_append_mismatch _ _ _ (by decide)
    · exact absurd h (ne_of_prefix_discr _ hP (by decide))
    · exact absurd h (ne_of_prefix_discr _ hP (by decide))
    · refine absurd h.symm (ne_of_prefix_discr _ hP ?_)
      split
      · unfold cpuPdLink
        simp only [List.append_assoc]
        exact isPrefixChars_append_mismatch _ _ _ (by decide)
      · unfold cpuIdleLink
        simp only [List.append_assoc]
        exact isPrefixChars_append_mismatch _ _ _ (by decide)
    · refine absurd h.symm (ne_of_prefix_discr _ hP ?_)
      unfold pdIdleLink
      simp only [List.append_assoc]
      exact isPrefixChars_append_mismatch _ _ _ (by decide)
    · exact absurd h (ne_of_prefix_discr _ hP (by decide))
    · exact absurd h (ne_of_prefix_discr _ hP (by decide))
    · exact absurd h (ne_of_prefix_discr _ hP (by decide))
  · intro hi
    simp only [mermaidLines, List.mem_append, List.mem_cons, List.mem_map,
      List.not_mem_nil, or_false, List.mem_singleton]
    iterate 7 left
    right
    exact ⟨i, hi, rfl⟩


theorem cpu_underscore_contra (i : Nat) (rest tail : List Char)
    (h : "  CPU".data ++ (natDigits i ++ rest) = "  CPU".data ++ ('_' :: tail)) :
    False := by
  have h2 := List.append_cancel_left h
  obtain ⟨c, cs, hnd, hdg⟩ := natDigits_head_digit i
  rw [hnd] at h2
  simp only [List.cons_append, List.cons.injEq] at h2
  rw [h2.1] at hdg
  exact absurd hdg (by decide)

theorem cpuPdLink_prefix (i : Nat) :
    isPrefixChars "  CPU".data (cpuPdLink i) = true := by
  unfold cpuPdLink
  simp only [List.append_assoc]
  exact isPrefixChars_append_self _ _

theorem cpuPdLink_mem (info : IdleInfo) (i : Nat) :
    cpuPdLink i ∈ mermaidLines info ↔
      (i ∈ info.cpu_idxs.take 8 ∧ i ∈ info.pd_idxs.take 8) := by
  constructor
  · intro h
    have hP := cpuPdLink_prefix i
    simp only [mermaidLines, List.mem_append, List.mem_cons, List.mem_map,
      List.not_mem_nil, or_false, List.mem_singleton] at h
    rcases h with ((((((((((((h|h|h)|⟨a,ha,h⟩)|h)|h)|h)|⟨a,ha,h⟩)|h)|h)|h)|h)|⟨a,ha,h⟩)|⟨a,ha,h⟩)|h|h|h
    · exact absurd h (ne_of_prefix_discr _ hP (by decide))
    · exact absurd h (ne_of_prefix_discr _ hP (by decide))
    · exact absurd h (ne_of_prefix_discr _ hP (by decide))
    · refine absurd h.symm (ne_of_prefix_discr _ hP ?_)
      unfold cpuDeclLine
      simp only [List.append_assoc]
      exact isPrefixChars_append_mismatch _ _ _ (by decide)
    · exact absurd h (ne_of_prefix_discr _ hP (by decide))
    · -- cpuIdleLine: the underscore after "  CPU" is not a digit
      exfalso
      apply cpu_underscore_contra i
        (" --> PD".data ++ natDigits i)
        ("IDLE[\"CPU Idle State\\npower-collapse\\npsci=".data ++
          (paramOrDash info.cpu_sleep_param ++ "\"]".data))
      calc "  CPU".data ++ (natDigits i ++ (" --> PD".data ++ natDigits i))
          = cpuPdLink i := by unfold cpuPdLink; simp only [List.append_assoc]
        _ = cpuIdleLine (paramOrDash info.cpu_sleep_param) := h
        _ = "  CPU".data ++ ('_' :: ("IDLE[\"CPU Idle State\\npower-collapse\\npsci=".data ++
              (paramOrDash info.cpu_sleep_param ++ "\"]".data))) := by
            unfold cpuIdleLine
            simp only [List.append_assoc]
            rfl
    · exact absurd h (ne_of_prefix_discr _ hP (by decide))
    · refine absurd h.symm (ne_of_prefix_discr _ hP ?_)
      unfold pdDeclLine
      simp only [List.append_assoc]
      exact isPrefixChars_append_mismatch _ _ _ (by decide)
    · exact absurd h (ne_of_prefix_discr _ hP (by decide))
    · refine absurd h (ne_of_prefix_discr _ hP ?_)
      unfold clusterIdleLine
      simp only [List.append_assoc]
      exact isPrefixChars_append_mismatch _ _ _ (by decide)
    · exact absurd h (ne_of_prefix_discr _ hP (by decide))
    · exact absurd h (ne_of_prefix_discr _ hP (by decide))
    · -- the link segment
      split at h
      · -- cpuPdLink a = cpuPdLink i
        unfold cpuPdLink at h
        simp only [List.append_assoc] at h
        have h2 := List.append_cancel_left h
        obtain ⟨hai, -⟩ := natDigits_append_cancel
          (" --> PD".data ++ natDigits a)
          (" --> PD".data ++ natDigits i)
          (by intro c hc; injection hc with hc; rw [← hc]; decide)
          (by intro c hc; injection hc with hc; rw [← hc]; decide) h2
        subst hai
        exact ⟨ha, by assumption⟩
      · -- cpuIdleLink a = cpuPdLink i : impossible
        exfalso
        unfold cpuIdleLink cpuPdLink at h
        simp only [List.append_assoc] at h
        have h2 := List.append_cancel_left h
        obtain ⟨-, htail⟩ := natDigits_append_cancel
          (" --> CPU_IDLE".data)
          (" --> PD".data ++ natDigits i)
          (by intro c hc; injection hc with hc; rw [← hc]; decide)
          (by intro c hc; injection hc with hc; rw [← hc]; decide) h2
        exact absurd htail (ne_of_prefix_discr " --> C".data (by decide)
          (by rw [isPrefixChars_append_le _ _ _ (by decide)]; decide))
    · refine absurd h.symm (ne_of_prefix_discr _ hP ?_)
      unfold pdIdleLink
      simp only [List.append_assoc]
      exact isPrefixChars_append_mismatch _ _ _ (by decide)
    · exfalso
      apply cpu_underscore_contra i
        (" --> PD".data ++ natDigits i)
        ("IDLE --> CLUSTER_IDLE".data)
      calc "  CPU".data ++ (natDigits i ++ (" --> PD".data ++ natDigits i))
          = cpuPdLink i := by unfold cpuPdLink; simp only [List.append_assoc]
        _ = _ := h
    · exact absurd h (ne_of_prefix_discr _ hP (by decide))
    · exact absurd h (ne_of_prefix_discr _ hP (by decide))
  · rintro ⟨hiT, hiS⟩
    simp only [mermaidLines, List.mem_append, List.mem_cons, List.mem_map,
      List.not_mem_nil, or_false, List.mem_singleton]
    iterate 2 left
    right
    exact ⟨i, hiT, by rw [if_pos hiS]⟩


theorem cpuIdleLink_prefix (i : Nat) :
    isPrefixChars "  CPU".data (cpuIdleLink i) = true := by
  unfold cpuIdleLink
  simp only [List.append_assoc]
  exact isPrefixChars_append_self _ _

theorem cpuIdleLink_mem (info : IdleInfo) (i : Nat) :
    cpuIdleLink i ∈ mermaidLines info ↔
      (i ∈ info.cpu_idxs.take 8 ∧ i ∉ info.pd_idxs.take 8) := by
  constructor
  · intro h
    have hP := cpuIdleLink_prefix i
    simp only [mermaidLines, List.mem_append, List.mem_cons, List.mem_map,
      List.not_mem_nil, or_false, List.mem_singleton] at h
    rcases h with ((((((((((((h|h|h)|⟨a,ha,h⟩)|h)|h)|h)|⟨a,ha,h⟩)|h)|h)|h)|h)|⟨a,ha,h⟩)|⟨a,ha,h⟩)|h|h|h
    · exact absurd h (ne_of_prefix_discr _ hP (by decide))
    · exact absurd h (ne_of_prefix_discr _ hP (by decide))
    · exact absurd h (ne_of_prefix_discr _ hP (by decide))
    · refine absurd h.symm (ne_of_prefix_discr _ hP ?_)
      unfold cpuDeclLine
      simp only [List.append_assoc]
      exact isPrefixChars_append_mismatch _ _ _ (by decide)
    · exact absurd h (ne_of_prefix_discr _ hP (by decide))
    · exfalso
      apply cpu_underscore_contra i
        (" --> CPU_IDLE".data)
        ("IDLE[\"CPU Idle State\\npower-collapse\\npsci=".data ++
          (paramOrDash info.cpu_sleep_param ++ "\"]".data))
      calc "  CPU".data ++ (natDigits i ++ " --> CPU_IDLE".data)
          = cpuIdleLink i := by unfold cpuIdleLink; simp only [List.append_assoc]
        _ = cpuIdleLine (paramOrDash info.cpu_sleep_param) := h
        _ = "  CPU".data ++ ('_' :: ("IDLE[\"CPU Idle State\\npower-collapse\\npsci=".data ++
              (paramOrDash info.cpu_sleep_param ++ "\"]".data))) := by
            unfold cpuIdleLine
            simp only [List.append_assoc]
            rfl
    · exact absurd h (ne_of_prefix_discr _ hP (by decide))
    · refine absurd h.symm (ne_of_prefix_discr _ hP ?_)
      unfold pdDeclLine
      simp only [List.append_assoc]
      exact isPrefixChars_append_mismatch _ _ _ (by decide)
    · exact absurd h (ne_of_prefix_discr _ hP (by decide))
    · refine absurd h (ne_of_prefix_discr _ hP ?_)
      unfold clusterIdleLine
      simp only [List.append_assoc]
      exact isPrefixChars_append_mismatch _ _ _ (by decide)
    · exact absurd h (ne_of_prefix_discr _ hP (by decide))
    · exact absurd h (ne_of_prefix_discr _ hP (by decide))
    · -- the link segment
      split at h
      · -- cpuPdLink a = cpuIdleLink i : impossible
        exfalso
        unfold cpuIdleLink cpuPdLink at h
        simp only [List.append_assoc] at h
        have h2 := List.append_cancel_left h
        obtain ⟨-, htail⟩ := natDigits_append_cancel
          (" --> PD".data ++ natDigits a)
          (" --> CPU_IDLE".data)
          (by intro c hc; injection hc with hc; rw [← hc]; decide)
          (by intro c hc; injection hc with hc; rw [← hc]; decide) h2
        exact absurd htail.symm (ne_of_prefix_discr " --> C".data (by decide)
          (by rw [isPrefixChars_append_le _ _ _ (by decide)]; decide))
      · -- cpuIdleLink a = cpuIdleLink i
        unfold cpuIdleLink at h
        simp only [List.append_assoc] at h
        have h2 := List.append_cancel_left h
        obtain ⟨hai, -⟩ := natDigits_append_cancel
          (" --> CPU_IDLE".data)
          (" --> CPU_IDLE".data)
          (by intro c hc; injection hc with hc; rw [← hc]; decide)
          (by intro c hc; injection hc with hc; rw [← hc]; decide) h2
        subst hai
        exact ⟨ha, by assumption⟩
    · refine absurd h.symm (ne_of_prefix_discr _ hP ?_)
      unfold pdIdleLink
      simp only [List.append_assoc]
      exact isPrefixChars_append_mismatch _ _ _ (by decide)
    · exfalso
      apply cpu_underscore_contra i
        (" --> CPU_IDLE".data)
        ("IDLE --> CLUSTER_IDLE".data)
      calc "  CPU".data ++ (natDigits i ++ " --> CPU_IDLE".data)
          = cpuIdleLink i := by unfold cpuIdleLink; simp only [List.append_assoc]
        _ = _ := h
    · exact absurd h (ne_of_prefix_discr _ hP (by decide))
    · exact absurd h (ne_of_prefix_discr _ hP (by decide))
  · rintro ⟨hiT, hiS⟩
    simp only [mermaidLines, List.mem_append, List.mem_cons, List.mem_map,
      List.not_mem_nil, or_false, List.mem_singleton]
    iterate 2 left
    right
    exact ⟨i, hiT, by rw [if_neg hiS]⟩


/-- C10: when the idle topology is found, the emitted diagram contains a
CPU declaration line exactly for the first 8 extracted CPU indices and a
power-domain declaration line exactly for the first 8 power-domain
indices (entries beyond the eighth are omitted even when present in the
extractor result), and a CPU index links through its power-domain node
exactly when it lies in the first 8 CPU indices and the first 8
power-domain indices, linking directly to the CPU idle state otherwise;
the emitted text is these lines joined by newlines. -/
theorem C10_idle_diagram_truncation (content : List Char) (info : IdleInfo)
    (h : extract_idle_info content = some info) (hf : info.found = true) :
    (∀ i, cpuDeclLine i ∈ mermaidLines info ↔ i ∈ info.cpu_idxs.take 8) ∧
    (∀ i, pdDeclLine i ∈ mermaidLines info ↔ i ∈ info.pd_idxs.take 8) ∧
    (∀ i, cpuPdLink i ∈ mermaidLines info ↔
      (i ∈ info.cpu_idxs.take 8 ∧ i ∈ info.pd_idxs.take 8)) ∧
    (∀ i, cpuIdleLink i ∈ mermaidLines info ↔
      (i ∈ info.cpu_idxs.take 8 ∧ i ∉ info.pd_idxs.take 8)) ∧
    parse_idle_mermaid content = List.intercalate [newlineChar] (mermaidLines info) := by
  refine ⟨cpuDeclLine_mem info, pdDeclLine_mem info, cpuPdLink_mem info,
    cpuIdleLink_mem info, ?_⟩
  unfold parse_idle_mermaid
  rw [h]
  simp [hf]

/-- Witness for C10: a found topology with CPU index 0 and default
power domains declares CPU0 and links it through its power domain. -/
theorem C10_idle_diagram_witness :
    cpuDeclLine 0 ∈ mermaidLines ⟨true, [0], [0, 1, 2, 3], none, none, true, false⟩ ∧
    cpuPdLink 0 ∈ mermaidLines ⟨true, [0], [0, 1, 2, 3], none, none, true, false⟩ := by
  have h := C10_idle_diagram_truncation "domain-idle-states\ncluster_pd: x\ncpu0: cpu@0 \x7b".data
    ⟨true, [0], [0, 1, 2, 3], none, none, true, false⟩ (by decide) (by decide)
  exact ⟨(h.1 0).mpr (by decide), (h.2.2.1 0).mpr (by decide)⟩

end DtsParser
